import Mathlib

/-!
Verification of the `DegradationMix` degradation (audio_degrader).

The source is a single Python class that mixes a noise file into a stereo
input buffer at a target SNR.  We embed its data model and operations
shallowly:

* a numpy 2-D float array of shape (C, N) becomes `Buf := List (List ℝ)`
  (the outer list is the channel axis, so `shape[0] = b.length` and
  `shape[1] = numSamples b`, the length of the first row, matching numpy's
  `shape[1]` on a well-formed rectangular array);
* the unbounded `while` loop of `adjust_noise_duration` becomes a
  fuel-indexed function `loopConcat` returning `Option`: `none` models the
  loop still running after `fuel` iterations (the Python loop either
  terminates, in which case some fuel returns `some`, or runs forever, in
  which case every fuel returns `none`);
* filesystem access (`os.path.isfile`), audio decoding (`librosa.load`)
  and `float(...)` parsing are oracles passed as parameters; a `none`
  result of an oracle models the corresponding Python exception;
* float arithmetic is modelled over `ℝ` (`10 ** x` as `Real.rpow`,
  `np.sqrt` as `Real.sqrt`).
-/

namespace DegradationMix

/-- A numpy array of shape (C, N): list of channel rows. -/
abbrev Buf : Type := List (List ℝ)

/-- `b.shape[1]`: number of samples per channel (length of the first row). -/
def numSamples (b : Buf) : ℕ := (b.headD []).length

/-- Total number of scalar entries of the array (`np.size`). -/
def numel (b : Buf) : ℕ := (b.map List.length).sum

/-- `np.concatenate((a, b), axis=1)`: rows are appended pairwise. -/
def concatCols (a b : Buf) : Buf := List.zipWith (fun r s => r ++ s) a b

/-- `b[:, :n]`: truncate every row to its first `n` entries. -/
def truncCols (n : ℕ) (b : Buf) : Buf := b.map (fun r => r.take n)

/-- Sum of squares of one row (`np.power(row, 2)` summed). -/
def rowSq (r : List ℝ) : ℝ := (r.map (fun x => x ^ 2)).sum

/-- Sum of squares of all entries of the array. -/
def sumSq (b : Buf) : ℝ := (b.map rowSq).sum

/-- `np.sqrt(np.mean(np.power(b, 2)))`: the mean divides by the total
number of entries. -/
noncomputable def rms (b : Buf) : ℝ := Real.sqrt (sumSq b / (numel b : ℝ))

/-- Result of `lr.core.load(path, sr, mono=False)`: the decoded signal is
either one-dimensional (shape `(N,)`) or two-dimensional (shape `(C, N)`);
the Python code distinguishes the two by `len(shape) == 1`. -/
inductive Decoded where
  | mono (xs : List ℝ)
  | multi (chs : Buf)

/-- `read_noise`, after the decode call: a mono signal is copied into both
rows of a fresh `np.zeros((2, N))` array; a multi-channel signal is
returned as-is. -/
def read_noise (dec : Decoded) : Buf :=
  match dec with
  | Decoded.mono xs =>
      let noise_samples : Buf := List.replicate 2 (List.replicate xs.length (0 : ℝ))
      let noise_samples := noise_samples.set 0 xs
      let noise_samples := noise_samples.set 1 xs
      noise_samples
  | Decoded.multi chs => chs

/-- The `while noise_samples.shape[1] < input_num_samples` loop of
`adjust_noise_duration`, with explicit fuel: each iteration replaces the
buffer by `np.concatenate((noise_samples, noise_samples), axis=1)`.
`none` means the loop has not exited within `fuel` iterations. -/
def loopConcat : ℕ → Buf → ℕ → Option Buf
  | 0, noise_samples, input_num_samples =>
      if numSamples noise_samples < input_num_samples then none
      else some noise_samples
  | fuel + 1, noise_samples, input_num_samples =>
      if numSamples noise_samples < input_num_samples then
        loopConcat fuel (concatCols noise_samples noise_samples) input_num_samples
      else some noise_samples

/-- `adjust_noise_duration`: repeat-then-trim.  Fuel `L + 1` is enough for
every terminating run (proved below); a `none` result models divergence of
the Python loop. -/
def adjust_noise_duration (noise_samples : Buf) (input_num_samples : ℕ) : Option Buf :=
  (loopConcat (input_num_samples + 1) noise_samples input_num_samples).map
    (truncCols input_num_samples)

/-- `os.path.join` for two POSIX components: an absolute second component
discards the first; otherwise the components are glued with a single
separator. -/
def joinPath (a b : String) : String :=
  if b.front == '/' then b
  else if a == ("") then b
  else if a.back == '/' then a ++ b
  else a ++ ("/") ++ b

/-- `get_actual_noise_path`: `isFile` is the `os.path.isfile` oracle,
`packageRoot` is `audio_degrader.__path__[0]`, `noiseParam` is
`parameters_values['noise']`. -/
def get_actual_noise_path (isFile : String → Bool) (packageRoot noiseParam : String) :
    String :=
  let resources_dir := joinPath packageRoot ("resources")
  let noise_path := noiseParam
  if isFile noise_path then noise_path
  else joinPath resources_dir noise_path

/-- `get_noise_gain_factor`:
`snr_linear = 10 ** (snr_dbs / 20.0)`;
`noise_gain_factor = rms_input / rms_noise / snr_linear`. -/
noncomputable def get_noise_gain_factor (snr_dbs rms_noise rms_input : ℝ) : ℝ :=
  let snr_linear : ℝ := (10 : ℝ) ^ (snr_dbs / 20)
  rms_input / rms_noise / snr_linear

/-- `b * g`: scale every entry. -/
def scaleBuf (b : Buf) (g : ℝ) : Buf := b.map (List.map (fun v => v * g))

/-- Elementwise sum of two arrays of equal shape. -/
def addBuf (a b : Buf) : Buf := List.zipWith (List.zipWith (fun x y => x + y)) a b

/-- `y * a / c`: every entry is multiplied by `a` and divided by `c`. -/
noncomputable def scaleDiv (b : Buf) (a c : ℝ) : Buf :=
  b.map (List.map (fun v => v * a / c))

/-- `y = degraded_audio_file.samples + noise_samples * noise_gain_factor`
(steps 3-5 of `apply`, with `rms` computed exactly as in the source). -/
noncomputable def mixedSignal (input noise_samples : Buf) (snr : ℝ) : Buf :=
  addBuf input (scaleBuf noise_samples (get_noise_gain_factor snr (rms noise_samples) (rms input)))

/-- Steps 3-7 of `apply` on an already duration-adjusted noise buffer:
mix, then `y = y * rms_input / rms_y`. -/
noncomputable def applyCore (input noise_samples : Buf) (snr : ℝ) : Buf :=
  scaleDiv (mixedSignal input noise_samples snr) (rms input)
    (rms (mixedSignal input noise_samples snr))

/-- The numeric pipeline of `apply` from a loaded (pre-adjustment) noise
buffer: duration adjustment followed by `applyCore`. -/
noncomputable def applyMix (input noise0 : Buf) (snr : ℝ) : Option Buf :=
  (adjust_noise_duration noise0 (numSamples input)).map
    (fun noise_samples => applyCore input noise_samples snr)

/-- The host object: `samples` buffer and `sample_rate`. -/
structure DegradedAudioFile where
  samples : Buf
  sample_rate : ℕ

/-- The abort causes of `apply`: decode failure (missing file or broken
audio), `float(snr)` parse failure, or the duration loop not finishing
within the given fuel. -/
inductive MixError where
  | decodeError
  | snrParseError
  | loopDiverges
deriving DecidableEq

/-- `apply(degraded_audio_file)` with its effects made explicit.  `isFile`,
`decode` and `parseFloat` are the filesystem / librosa / `float` oracles;
a `none` oracle result is the corresponding Python exception.  The result
pairs the host object after the call with `some` error when the call
aborted.  The single write to `samples` is the final assignment; every
abort returns the host unchanged, mirroring the Python control flow where
the exception propagates before `degraded_audio_file.samples = y`. -/
noncomputable def apply (isFile : String → Bool) (packageRoot : String)
    (decode : String → ℕ → Option Decoded)
    (parseFloat : String → Option ℝ)
    (noiseParam snrParam : String)
    (degraded_audio_file : DegradedAudioFile) :
    DegradedAudioFile × Option MixError :=
  let noise_path := get_actual_noise_path isFile packageRoot noiseParam
  match decode noise_path degraded_audio_file.sample_rate with
  | none => (degraded_audio_file, some MixError.decodeError)
  | some dec =>
    match adjust_noise_duration (read_noise dec)
        (numSamples degraded_audio_file.samples) with
    | none => (degraded_audio_file, some MixError.loopDiverges)
    | some noise_samples =>
      match parseFloat snrParam with
      | none => (degraded_audio_file, some MixError.snrParseError)
      | some snr =>
        ({ degraded_audio_file with
            samples := applyCore degraded_audio_file.samples noise_samples snr },
         none)

/-! ### Duration adjustment: shape, idempotence, termination -/

/-- Doubling along the sample axis is a rowwise self-append. -/
lemma concatCols_self (b : Buf) : concatCols b b = b.map (fun r => r ++ r) := by
  induction b with
  | nil => rfl
  | cons r t ih =>
    simp only [concatCols, List.zipWith, List.map] at ih ⊢
    rw [ih]

lemma length_concatCols_self (b : Buf) : (concatCols b b).length = b.length := by
  rw [concatCols_self, List.length_map]

lemma numSamples_concatCols_self (b : Buf) :
    numSamples (concatCols b b) = 2 * numSamples b := by
  cases b with
  | nil => rfl
  | cons r t => simp [concatCols, numSamples, List.zipWith]; ring

lemma rows_concatCols_self {b : Buf} {m : ℕ} (h : ∀ r ∈ b, r.length = m) :
    ∀ r ∈ concatCols b b, r.length = 2 * m := by
  rw [concatCols_self]
  intro r hr
  rcases List.mem_map.mp hr with ⟨s, hs, rfl⟩
  simp [h s hs]; ring

/-- If the exit condition already holds, the loop returns its input for
every fuel. -/
lemma loopConcat_of_not_lt {b : Buf} {L : ℕ} (h : ¬ numSamples b < L) :
    ∀ fuel, loopConcat fuel b L = some b := by
  intro fuel
  cases fuel with
  | zero => rw [loopConcat, if_neg h]
  | succ n => rw [loopConcat, if_neg h]

/-- Enough fuel makes the loop exit: one doubling per unit of fuel. -/
lemma loopConcat_isSome (fuel : ℕ) :
    ∀ (b : Buf) (L : ℕ), L ≤ numSamples b * 2 ^ fuel →
      (loopConcat fuel b L).isSome = true := by
  induction fuel with
  | zero =>
    intro b L h
    rw [loopConcat, if_neg (by simpa using h)]
    rfl
  | succ n ih =>
    intro b L h
    by_cases hc : numSamples b < L
    · rw [loopConcat, if_pos hc]
      refine ih _ _ ?_
      rw [numSamples_concatCols_self]
      rw [pow_succ] at h
      calc L ≤ numSamples b * (2 ^ n * 2) := h
        _ = 2 * numSamples b * 2 ^ n := by ring
    · rw [loopConcat, if_neg hc]
      rfl

/-- Structural invariants of a terminating loop run: the channel count is
preserved, the exit condition holds at the result, and rectangularity is
preserved. -/
lemma loopConcat_props (fuel : ℕ) :
    ∀ (b : Buf) (L : ℕ) (out : Buf), loopConcat fuel b L = some out →
      out.length = b.length ∧ L ≤ numSamples out ∧
        ∀ m, (∀ r ∈ b, r.length = m) → ∃ mo, ∀ r ∈ out, r.length = mo := by
  induction fuel with
  | zero =>
    intro b L out h
    rw [loopConcat] at h
    by_cases hc : numSamples b < L
    · rw [if_pos hc] at h; exact absurd h (by simp)
    · rw [if_neg hc] at h
      cases h
      exact ⟨rfl, not_lt.mp hc, fun m hm => ⟨m, hm⟩⟩
  | succ n ih =>
    intro b L out h
    rw [loopConcat] at h
    by_cases hc : numSamples b < L
    · rw [if_pos hc] at h
      rcases ih _ _ _ h with ⟨hlen, hnum, hrect⟩
      refine ⟨hlen.trans (length_concatCols_self b), hnum, fun m hm => ?_⟩
      exact hrect (2 * m) (rows_concatCols_self hm)
    · rw [if_neg hc] at h
      cases h
      exact ⟨rfl, not_lt.mp hc, fun m hm => ⟨m, hm⟩⟩

/-- A rectangular two-row buffer with rows of length `m` has `shape[1] = m`. -/
lemma numSamples_of_rows {b : Buf} {m : ℕ} (hlen : b.length = 2)
    (hrows : ∀ r ∈ b, r.length = m) : numSamples b = m := by
  cases b with
  | nil => simp at hlen
  | cons r t => exact hrows r (List.mem_cons_self r t)

/-- The doubling loop never exits when the buffer is empty per channel. -/
lemma loopConcat_none_of_empty (L : ℕ) (hL : 0 < L) :
    ∀ (fuel : ℕ) (b : Buf), numSamples b = 0 → loopConcat fuel b L = none := by
  intro fuel
  induction fuel with
  | zero =>
    intro b h0
    rw [loopConcat, if_pos (by omega)]
  | succ n ih =>
    intro b h0
    rw [loopConcat, if_pos (by omega)]
    exact ih _ (by rw [numSamples_concatCols_self, h0])

/-- C3: for a noise buffer of shape (2, M) with M ≥ 1 and any target
length L, `adjust_noise_duration` succeeds and returns a buffer of shape
exactly (2, L); when M ≥ L no repetition occurs and the buffer is trimmed
directly. -/
theorem adjust_noise_duration_shape (noise : Buf) (M L : ℕ)
    (hlen : noise.length = 2) (hrows : ∀ r ∈ noise, r.length = M) (hM : 1 ≤ M) :
    ∃ out, adjust_noise_duration noise L = some out ∧ out.length = 2 ∧
      (∀ r ∈ out, r.length = L) ∧ (L ≤ M → out = truncCols L noise) := by
  have hnum : numSamples noise = M := numSamples_of_rows hlen hrows
  have hfuel : L ≤ numSamples noise * 2 ^ (L + 1) := by
    rw [hnum]
    calc L ≤ 2 ^ L := (Nat.lt_two_pow L).le
      _ ≤ 2 ^ (L + 1) := Nat.pow_le_pow_right (by norm_num) (Nat.le_succ L)
      _ = 1 * 2 ^ (L + 1) := (one_mul _).symm
      _ ≤ M * 2 ^ (L + 1) := Nat.mul_le_mul_right _ hM
  obtain ⟨mid, hmid⟩ :=
    Option.isSome_iff_exists.mp (loopConcat_isSome (L + 1) noise L hfuel)
  obtain ⟨hmlen, hmnum, hmrect⟩ := loopConcat_props (L + 1) noise L mid hmid
  obtain ⟨mo, hmo⟩ := hmrect M hrows
  have hmidlen : mid.length = 2 := hmlen.trans hlen
  have hmonum : numSamples mid = mo := numSamples_of_rows hmidlen hmo
  refine ⟨truncCols L mid, ?_, ?_, ?_, ?_⟩
  · rw [adjust_noise_duration, hmid]
    rfl
  · simp [truncCols, hmidlen]
  · intro r hr
    rcases List.mem_map.mp hr with ⟨s, hs, rfl⟩
    rw [List.length_take, hmo s hs]
    exact Nat.min_eq_left (hmonum ▸ hmnum)
  · intro hLM
    have hexit : ¬ numSamples noise < L := by omega
    rw [loopConcat_of_not_lt hexit (L + 1)] at hmid
    injection hmid with h3
    rw [← h3]

/-- Witness for C3 at noise `[[1,2,3],[4,5,6]]` (M = 3) and L = 5. -/
theorem adjust_noise_duration_shape_witness :
    (([[(1 : ℝ), 2, 3], [4, 5, 6]] : Buf).length = 2 ∧
      (∀ r ∈ ([[(1 : ℝ), 2, 3], [4, 5, 6]] : Buf), r.length = 3) ∧ 1 ≤ 3) ∧
    ∃ out, adjust_noise_duration [[(1 : ℝ), 2, 3], [4, 5, 6]] 5 = some out ∧
      out.length = 2 ∧ (∀ r ∈ out, r.length = 5) ∧
      (5 ≤ 3 → out = truncCols 5 [[(1 : ℝ), 2, 3], [4, 5, 6]]) :=
  ⟨⟨by decide, by decide, by decide⟩,
    adjust_noise_duration_shape [[(1 : ℝ), 2, 3], [4, 5, 6]] 3 5
      (by decide) (by decide) (by decide)⟩

/-- C9: when the noise buffer already has shape (2, L), the duration
adjustment returns it unchanged. -/
theorem adjust_noise_duration_id (noise : Buf) (L : ℕ)
    (hlen : noise.length = 2) (hrows : ∀ r ∈ noise, r.length = L) :
    adjust_noise_duration noise L = some noise := by
  have hnum : numSamples noise = L := numSamples_of_rows hlen hrows
  have hexit : ¬ numSamples noise < L := by omega
  rw [adjust_noise_duration, loopConcat_of_not_lt hexit (L + 1)]
  have htrim : truncCols L noise = noise := by
    have h1 : ∀ r ∈ noise, r.take L = r := by
      intro r hr
      exact List.take_of_length_le (le_of_eq (hrows r hr))
    calc truncCols L noise = noise.map id := List.map_congr_left h1
      _ = noise := List.map_id noise
  simp [htrim]

/-- Witness for C9 at noise `[[1,2],[3,4]]` and L = 2. -/
theorem adjust_noise_duration_id_witness :
    (([[(1 : ℝ), 2], [3, 4]] : Buf).length = 2 ∧
      (∀ r ∈ ([[(1 : ℝ), 2], [3, 4]] : Buf), r.length = 2)) ∧
    adjust_noise_duration [[(1 : ℝ), 2], [3, 4]] 2 = some [[(1 : ℝ), 2], [3, 4]] :=
  ⟨⟨by decide, by decide⟩,
    adjust_noise_duration_id [[(1 : ℝ), 2], [3, 4]] 2 (by decide) (by decide)⟩

/-- C10: the repeat-doubling loop terminates for every noise buffer with
at least one sample per channel (some fuel suffices), and with an empty
per-channel buffer and a positive target the loop never exits (no fuel
suffices). -/
theorem loopConcat_termination (noise : Buf) (L : ℕ) :
    (1 ≤ numSamples noise → ∃ fuel, (loopConcat fuel noise L).isSome = true) ∧
    (numSamples noise = 0 → 0 < L → ∀ fuel, loopConcat fuel noise L = none) := by
  constructor
  · intro h1
    refine ⟨L, loopConcat_isSome L noise L ?_⟩
    calc L ≤ 2 ^ L := (Nat.lt_two_pow L).le
      _ = 1 * 2 ^ L := (one_mul _).symm
      _ ≤ numSamples noise * 2 ^ L := Nat.mul_le_mul_right _ h1
  · intro h0 hL fuel
    exact loopConcat_none_of_empty L hL fuel noise h0

/-- Witness for C10: termination at `[[1],[1]]`, divergence at `[[],[]]`,
target length 3 in both cases. -/
theorem loopConcat_termination_witness :
    (1 ≤ numSamples [[(1 : ℝ)], [1]] ∧
      ∃ fuel, (loopConcat fuel [[(1 : ℝ)], [1]] 3).isSome = true) ∧
    (numSamples ([[], []] : Buf) = 0 ∧ 0 < 3 ∧
      ∀ fuel, loopConcat fuel ([[], []] : Buf) 3 = none) :=
  ⟨⟨by decide, (loopConcat_termination [[(1 : ℝ)], [1]] 3).1 (by decide)⟩,
    ⟨by decide, by decide,
      (loopConcat_termination ([[], []] : Buf) 3).2 (by decide) (by decide)⟩⟩

/-! ### Gain factor: formula and monotonicity -/

/-- C2: the gain computation is exactly
`rms_input / rms_noise / 10 ^ (snr_dbs / 20)` — the 20-based
(amplitude-ratio) exponent — and this differs from the 10-based
(power-ratio) variant. -/
theorem get_noise_gain_factor_formula :
    (∀ snr_dbs rms_noise rms_input : ℝ,
      get_noise_gain_factor snr_dbs rms_noise rms_input =
        rms_input / rms_noise / (10 : ℝ) ^ (snr_dbs / 20)) ∧
    (∃ snr_dbs rms_noise rms_input : ℝ,
      get_noise_gain_factor snr_dbs rms_noise rms_input ≠
        rms_input / rms_noise / (10 : ℝ) ^ (snr_dbs / 10)) := by
  refine ⟨fun s rn ri => rfl, ⟨20, 1, 1, ?_⟩⟩
  show (1 : ℝ) / 1 / ((10 : ℝ) ^ ((20 : ℝ) / 20)) ≠
    (1 : ℝ) / 1 / ((10 : ℝ) ^ ((20 : ℝ) / 10))
  rw [show ((20 : ℝ) / 20) = 1 by norm_num, show ((20 : ℝ) / 10) = 2 by norm_num,
    Real.rpow_one, show ((2 : ℝ)) = ((2 : ℕ) : ℝ) by norm_num, Real.rpow_natCast]
  norm_num

/-- C7: for fixed positive RMS values, the noise gain factor is strictly
decreasing in the target SNR. -/
theorem get_noise_gain_factor_strictAnti (s1 s2 rms_noise rms_input : ℝ)
    (hrn : 0 < rms_noise) (hri : 0 < rms_input) (h : s1 < s2) :
    get_noise_gain_factor s2 rms_noise rms_input <
      get_noise_gain_factor s1 rms_noise rms_input := by
  show rms_input / rms_noise / ((10 : ℝ) ^ (s2 / 20)) <
    rms_input / rms_noise / ((10 : ℝ) ^ (s1 / 20))
  exact div_lt_div_of_pos_left (div_pos hri hrn)
    (Real.rpow_pos_of_pos (by norm_num) _)
    ((Real.rpow_lt_rpow_left_iff (by norm_num)).mpr (by linarith))

/-- Witness for C7 at s1 = 0, s2 = 20, both RMS values 1. -/
theorem get_noise_gain_factor_strictAnti_witness :
    (0 : ℝ) < 1 ∧ (0 : ℝ) < 20 ∧
      get_noise_gain_factor 20 1 1 < get_noise_gain_factor 0 1 1 :=
  ⟨by norm_num, by norm_num,
    get_noise_gain_factor_strictAnti 0 20 1 1 (by norm_num) (by norm_num) (by norm_num)⟩

/-! ### RMS scaling and the round-trip loudness property -/

lemma rowSq_map_mul (r : List ℝ) (k : ℝ) :
    rowSq (r.map (fun v => v * k)) = k ^ 2 * rowSq r := by
  unfold rowSq
  induction r with
  | nil => simp
  | cons a t ih =>
    simp only [List.map, List.map_cons, List.sum_cons] at ih ⊢
    rw [ih]
    ring

lemma sumSq_scaleBuf (b : Buf) (k : ℝ) : sumSq (scaleBuf b k) = k ^ 2 * sumSq b := by
  induction b with
  | nil => simp [sumSq, scaleBuf]
  | cons r t ih =>
    simp only [sumSq, scaleBuf, List.map, List.map_cons, List.sum_cons] at ih ⊢
    rw [rowSq_map_mul, ih]
    ring

lemma numel_scaleBuf (b : Buf) (k : ℝ) : numel (scaleBuf b k) = numel b := by
  simp [numel, scaleBuf, List.map_map, Function.comp_def, List.length_map]

lemma rms_scaleBuf (b : Buf) (k : ℝ) : rms (scaleBuf b k) = |k| * rms b := by
  unfold rms
  rw [sumSq_scaleBuf, numel_scaleBuf, mul_div_assoc,
    Real.sqrt_mul (sq_nonneg k), Real.sqrt_sq_eq_abs]

lemma scaleDiv_eq_scaleBuf (b : Buf) (a c : ℝ) : scaleDiv b a c = scaleBuf b (a / c) := by
  simp [scaleDiv, scaleBuf, mul_div_assoc]

/-- C1 (amended): whenever the duration adjustment succeeds and the mixed
signal `input + gain * noise` has nonzero RMS, the buffer written back by
`apply` has RMS exactly equal to the input RMS, regardless of the
requested SNR and the noise RMS. -/
theorem apply_roundtrip_rms (input noise0 noise_samples : Buf) (snr : ℝ)
    (hadj : adjust_noise_duration noise0 (numSamples input) = some noise_samples)
    (hy : rms (mixedSignal input noise_samples snr) ≠ 0) :
    applyMix input noise0 snr = some (applyCore input noise_samples snr) ∧
    rms (applyCore input noise_samples snr) = rms input := by
  refine ⟨by rw [applyMix, hadj]; rfl, ?_⟩
  unfold applyCore
  rw [scaleDiv_eq_scaleBuf, rms_scaleBuf]
  have h0 : 0 ≤ rms (mixedSignal input noise_samples snr) := Real.sqrt_nonneg _
  have hri : 0 ≤ rms input := Real.sqrt_nonneg _
  rw [abs_of_nonneg (div_nonneg hri h0), div_mul_cancel₀ _ hy]

lemma rms_pair (a b : ℝ) : rms [[a], [b]] = Real.sqrt ((a ^ 2 + b ^ 2) / 2) := by
  simp [rms, sumSq, rowSq, numel]

lemma rms_one_one : rms [[(1 : ℝ)], [1]] = 1 := by
  rw [rms_pair]
  norm_num

lemma rms_negone : rms [[(-1 : ℝ)], [-1]] = 1 := by
  rw [rms_pair]
  norm_num

lemma rms_zero_zero : rms [[(0 : ℝ)], [0]] = 0 := by
  rw [rms_pair]
  norm_num

lemma rms_two_two : rms [[(2 : ℝ)], [2]] = 2 := by
  rw [rms_pair]
  norm_num
  rw [show (4 : ℝ) = 2 ^ 2 by norm_num, Real.sqrt_sq (by norm_num : (0 : ℝ) ≤ 2)]

lemma gain_zero_one_one : get_noise_gain_factor 0 1 1 = 1 := by
  show (1 : ℝ) / 1 / ((10 : ℝ) ^ ((0 : ℝ) / 20)) = 1
  norm_num

lemma mixed_ones : mixedSignal [[(1 : ℝ)], [1]] [[(1 : ℝ)], [1]] 0 = [[(2 : ℝ)], [2]] := by
  unfold mixedSignal
  rw [rms_one_one, gain_zero_one_one]
  simp [addBuf, scaleBuf]
  norm_num

lemma mixed_cancel : mixedSignal [[(1 : ℝ)], [1]] [[(-1 : ℝ)], [-1]] 0 = [[(0 : ℝ)], [0]] := by
  unfold mixedSignal
  rw [rms_negone, rms_one_one, gain_zero_one_one]
  simp [addBuf, scaleBuf]

lemma applyCore_cancel : applyCore [[(1 : ℝ)], [1]] [[(-1 : ℝ)], [-1]] 0 = [[(0 : ℝ)], [0]] := by
  unfold applyCore
  rw [mixed_cancel, rms_one_one, rms_zero_zero]
  simp [scaleDiv]

/-- Witness for C1 (amended): input `[[1],[1]]`, noise `[[1],[1]]`,
SNR 0; the mixed signal is `[[2],[2]]` with RMS 2 ≠ 0, and the output RMS
equals the input RMS. -/
theorem apply_roundtrip_rms_witness :
    adjust_noise_duration [[(1 : ℝ)], [1]] (numSamples [[(1 : ℝ)], [1]]) =
      some [[(1 : ℝ)], [1]] ∧
    rms (mixedSignal [[(1 : ℝ)], [1]] [[(1 : ℝ)], [1]] 0) ≠ 0 ∧
    rms (applyCore [[(1 : ℝ)], [1]] [[(1 : ℝ)], [1]] 0) = rms [[(1 : ℝ)], [1]] := by
  have h1 : adjust_noise_duration [[(1 : ℝ)], [1]] (numSamples [[(1 : ℝ)], [1]]) =
      some [[(1 : ℝ)], [1]] := rfl
  have h2 : rms (mixedSignal [[(1 : ℝ)], [1]] [[(1 : ℝ)], [1]] 0) ≠ 0 := by
    rw [mixed_ones, rms_two_two]
    norm_num
  exact ⟨h1, h2,
    (apply_roundtrip_rms [[(1 : ℝ)], [1]] [[(1 : ℝ)], [1]] [[(1 : ℝ)], [1]] 0 h1 h2).2⟩

/-- Counterexample to C1 as stated: with input `[[1],[1]]` (RMS 1 > 0),
noise `[[-1],[-1]]` (RMS 1 > 0, unchanged by duration adjustment) and
SNR 0, the mixed signal is identically zero, so the renormalization
divides by a zero RMS and the written-back buffer has RMS 0 ≠ 1. -/
theorem apply_roundtrip_rms_cex :
    applyMix [[(1 : ℝ)], [1]] [[(-1 : ℝ)], [-1]] 0 = some [[(0 : ℝ)], [0]] ∧
    rms [[(0 : ℝ)], [0]] = 0 ∧ rms [[(1 : ℝ)], [1]] = 1 ∧
    (0 : ℝ) < rms [[(1 : ℝ)], [1]] ∧ (0 : ℝ) < rms [[(-1 : ℝ)], [-1]] := by
  have hadj : adjust_noise_duration [[(-1 : ℝ)], [-1]] (numSamples [[(1 : ℝ)], [1]]) =
      some [[(-1 : ℝ)], [-1]] := rfl
  refine ⟨?_, rms_zero_zero, rms_one_one, by rw [rms_one_one]; norm_num,
    by rw [rms_negone]; norm_num⟩
  calc applyMix [[(1 : ℝ)], [1]] [[(-1 : ℝ)], [-1]] 0
      = some (applyCore [[(1 : ℝ)], [1]] [[(-1 : ℝ)], [-1]] 0) := by
        rw [applyMix, hadj]
        rfl
    _ = some [[(0 : ℝ)], [0]] := by rw [applyCore_cancel]

/-! ### Mono noise normalization -/

/-- C8: a decoded single-channel signal of shape (N,) becomes a buffer of
shape (2, N) whose two rows are both identical copies of the signal. -/
theorem read_noise_mono (xs : List ℝ) :
    (read_noise (Decoded.mono xs)).length = 2 ∧
    ∀ r ∈ read_noise (Decoded.mono xs), r = xs := by
  have h : read_noise (Decoded.mono xs) = [xs, xs] := rfl
  rw [h]
  refine ⟨rfl, ?_⟩
  intro r hr
  rcases List.mem_cons.mp hr with rfl | hr2
  · rfl
  · rcases List.mem_cons.mp hr2 with rfl | h3
    · rfl
    · exact absurd h3 (List.not_mem_nil r)

/-! ### Path resolution -/

/-- C6: an existing file is used verbatim; otherwise the parameter is
joined (with `os.path.join` semantics) under the `resources` directory of
the package root. -/
theorem get_actual_noise_path_resolution (isFile : String → Bool)
    (packageRoot noiseParam : String) :
    (isFile noiseParam = true →
      get_actual_noise_path isFile packageRoot noiseParam = noiseParam) ∧
    (isFile noiseParam = false →
      get_actual_noise_path isFile packageRoot noiseParam =
        joinPath (joinPath packageRoot ("resources")) noiseParam) := by
  constructor
  · intro h
    simp [get_actual_noise_path, h]
  · intro h
    simp [get_actual_noise_path, h]

/-- Witness for C6: an absolute path recognized by the filesystem oracle
is returned verbatim; a bare relative name is joined under
`<packageRoot>/resources`. -/
theorem get_actual_noise_path_resolution_witness :
    ((fun s => s == ("/tmp/noise.wav")) ("/tmp/noise.wav") = true ∧
      get_actual_noise_path (fun s => s == ("/tmp/noise.wav")) ("/pkg/audio_degrader")
        ("/tmp/noise.wav") = ("/tmp/noise.wav")) ∧
    ((fun s => s == ("/tmp/noise.wav")) ("sounds/pub.wav") = false ∧
      get_actual_noise_path (fun s => s == ("/tmp/noise.wav")) ("/pkg/audio_degrader")
        ("sounds/pub.wav") =
        joinPath (joinPath ("/pkg/audio_degrader") ("resources")) ("sounds/pub.wav")) :=
  ⟨⟨by decide, (get_actual_noise_path_resolution _ _ _).1 (by decide)⟩,
    ⟨by decide, (get_actual_noise_path_resolution _ _ _).2 (by decide)⟩⟩

/-! ### Atomicity of apply -/

/-- C5: either every step of `apply` succeeds and the host's samples
buffer is replaced by the mixed result (the only write), or the call
aborts with an error and the host object is returned exactly as it was. -/
theorem apply_atomicity (isFile : String → Bool) (packageRoot : String)
    (decode : String → ℕ → Option Decoded) (parseFloat : String → Option ℝ)
    (noiseParam snrParam : String) (daf : DegradedAudioFile) :
    ((apply isFile packageRoot decode parseFloat noiseParam snrParam daf).2 = none →
      ∃ dec noise_samples snr,
        decode (get_actual_noise_path isFile packageRoot noiseParam) daf.sample_rate =
          some dec ∧
        adjust_noise_duration (read_noise dec) (numSamples daf.samples) =
          some noise_samples ∧
        parseFloat snrParam = some snr ∧
        (apply isFile packageRoot decode parseFloat noiseParam snrParam daf).1 =
          { daf with samples := applyCore daf.samples noise_samples snr }) ∧
    ((apply isFile packageRoot decode parseFloat noiseParam snrParam daf).2 ≠ none →
      (apply isFile packageRoot decode parseFloat noiseParam snrParam daf).1 = daf) := by
  cases hdec : decode (get_actual_noise_path isFile packageRoot noiseParam)
      daf.sample_rate with
  | none =>
    refine ⟨fun hnone => ?_, fun _ => ?_⟩
    · exact absurd hnone (by simp [DegradationMix.apply, hdec])
    · simp [DegradationMix.apply, hdec]
  | some dec =>
    cases hadj : adjust_noise_duration (read_noise dec) (numSamples daf.samples) with
    | none =>
      refine ⟨fun hnone => ?_, fun _ => ?_⟩
      · exact absurd hnone (by simp [DegradationMix.apply, hdec, hadj])
      · simp [DegradationMix.apply, hdec, hadj]
    | some ns =>
      cases hsnr : parseFloat snrParam with
      | none =>
        refine ⟨fun hnone => ?_, fun _ => ?_⟩
        · exact absurd hnone (by simp [DegradationMix.apply, hdec, hadj, hsnr])
        · simp [DegradationMix.apply, hdec, hadj, hsnr]
      | some snr =>
        refine ⟨fun _ => ⟨dec, ns, snr, rfl, hadj, rfl, ?_⟩, fun hne => ?_⟩
        · simp [DegradationMix.apply, hdec, hadj, hsnr]
        · simp [DegradationMix.apply, hdec, hadj, hsnr] at hne

/-- Witness for C5: a decode oracle that always fails aborts the call and
returns the host object untouched. -/
theorem apply_atomicity_witness :
    (apply (fun _ => false) ("/pkg") (fun _ _ => none) (fun _ => none) ("n") ("6")
      ⟨[[(1 : ℝ)], [1]], 44100⟩).2 ≠ none ∧
    (apply (fun _ => false) ("/pkg") (fun _ _ => none) (fun _ => none) ("n") ("6")
      ⟨[[(1 : ℝ)], [1]], 44100⟩).1 = ⟨[[(1 : ℝ)], [1]], 44100⟩ := by
  have h : (apply (fun _ => false) ("/pkg") (fun _ _ => none) (fun _ => none) ("n") ("6")
      ⟨[[(1 : ℝ)], [1]], 44100⟩).2 ≠ none := by
    simp [DegradationMix.apply]
  exact ⟨h, (apply_atomicity _ _ _ _ _ _ ⟨[[(1 : ℝ)], [1]], 44100⟩).2 h⟩

end DegradationMix
